import Mathlib

/-!
# Verification of the solid-x-form control tree (src/src/control.ts and friends)

A shallow embedding of the form-state library: JavaScript values are modelled
with explicit allocation identity (`Val`), a `Control` node (src/src/control.ts,
`createControl`) becomes a tree `Ctrl` carrying its current value, optional
validator, error string, `isValidated` flag and the `fields` map of registered
children.  Async validators are modelled as functions into `Except Exn String`:
a `.error` result stands for a thrown exception / rejected promise, and the
totality of the Lean functions models the fact that `validate()` always
resolves.  `validate` is the snapshot fan-out of control.ts lines 147-159: the
child list is the content of the `fields` map at the moment of the call.
-/

/-- A thrown JavaScript exception value; `jsString` models `String(e)`. -/
structure Exn where
  msg : String
deriving Repr, DecidableEq

/-- `String(e)` applied to a thrown value. -/
def jsString (e : Exn) : String := e.msg

/-- JavaScript values, with allocation identity on arrays and objects so that
`===` (reference equality on objects, value equality on primitives) is
expressible.  `num` is kept integral: no claim involves float arithmetic. -/
inductive Val where
  | undefined
  | null
  | str (s : String)
  | num (n : Int)
  | bool (b : Bool)
  | arr (id : Nat) (elems : List Val)
  | obj (id : Nat) (entries : List (String × Val))
deriving Repr

/-- JavaScript `===`: structural on primitives, identity on arrays/objects. -/
def jsEq : Val → Val → Bool
  | .undefined, .undefined => true
  | .null, .null => true
  | .str a, .str b => a == b
  | .num a, .num b => a == b
  | .bool a, .bool b => a == b
  | .arr i _, .arr j _ => i == j
  | .obj i _, .obj j _ => i == j
  | _, _ => false

/-- A field key (`keyof T`): an object property name or an array index. -/
inductive FieldKey where
  | str (s : String)
  | idx (n : Nat)
deriving Repr, DecidableEq

/-- `String(key)`. -/
def FieldKey.toStr : FieldKey → String
  | .str s => s
  | .idx n => toString n

mutual
/-- A control node (`createControl`, control.ts lines 109-202): the reactive
cells that the claims read — `value`, the optional validator, the `error`
signal, the `isValidated` signal — plus the `fields` map of registered
children (a `Map` in insertion order). -/
inductive Ctrl where
  | mk (value : Val) (validator : Option (Val → Except Exn String))
      (error : String) (validated : Bool) (children : CtrlMap)

/-- The `fields` map: insertion-ordered keys to child controls. -/
inductive CtrlMap where
  | nil
  | cons (key : FieldKey) (child : Ctrl) (rest : CtrlMap)
end

def Ctrl.value : Ctrl → Val
  | .mk v _ _ _ _ => v

def Ctrl.validator : Ctrl → Option (Val → Except Exn String)
  | .mk _ f _ _ _ => f

def Ctrl.error : Ctrl → String
  | .mk _ _ e _ _ => e

def Ctrl.validated : Ctrl → Bool
  | .mk _ _ _ b _ => b

def Ctrl.children : Ctrl → CtrlMap
  | .mk _ _ _ _ cs => cs

/-- The `fields` map as a list of key/child pairs (`fieldArray` reads
`[...fields().values()]`; we keep the keys alongside). -/
def CtrlMap.toList : CtrlMap → List (FieldKey × Ctrl)
  | .nil => []
  | .cons k c rest => (k, c) :: rest.toList

def Ctrl.childList (c : Ctrl) : List (FieldKey × Ctrl) := c.children.toList

/-- `validateSelf` (control.ts lines 135-145): run the validator on the
current value; absent validator yields `''`; a thrown exception is caught and
stringified.  Returns the new error string and the boolean `!setError(err)`. -/
def runValidator : Option (Val → Except Exn String) → Val → String × Bool
  | none, _ => ("", true)
  | some f, v =>
    match f v with
    | .ok err => (err, err == "")
    | .error e => (jsString e, false)

mutual
/-- `validate` (control.ts lines 147-159): run `validateSelf` and, over the
snapshot of currently registered children, every child's `validate`; set
`isValidated` once all settle; the boolean is `result.every(Boolean)`.
Totality of this function models that the promise always resolves. -/
def Ctrl.validate : Ctrl → Ctrl × Bool
  | .mk v f _ _ cs =>
    let se := runValidator f v
    let cr := CtrlMap.validateAll cs
    (.mk v f se.1 true cr.1, se.2 && cr.2)

/-- The fan-out over the children snapshot. -/
def CtrlMap.validateAll : CtrlMap → CtrlMap × Bool
  | .nil => (.nil, true)
  | .cons k c rest =>
    let r := c.validate
    let rr := CtrlMap.validateAll rest
    (.cons k r.1 rr.1, r.2 && rr.2)
end

mutual
/-- `isInvalid` (control.ts lines 164-166):
`(isValidated() && Boolean(error())) || fieldArray().some(f => f.isInvalid())`. -/
def Ctrl.isInvalid : Ctrl → Bool
  | .mk _ _ e vd cs => (vd && e != "") || CtrlMap.anyInvalid cs

def CtrlMap.anyInvalid : CtrlMap → Bool
  | .nil => false
  | .cons _ c rest => c.isInvalid || CtrlMap.anyInvalid rest
end

/-- `isValid` (control.ts lines 167-169): `isValidated() && !isInvalid()`. -/
def Ctrl.isValid (c : Ctrl) : Bool := c.validated && !c.isInvalid

/-- `registerField` (utilities file): `new Map(prev).set(name, control)` —
replace in place when the key exists, append otherwise. -/
def CtrlMap.setKey : CtrlMap → FieldKey → Ctrl → CtrlMap
  | .nil, k, c => .cons k c .nil
  | .cons k' c' rest, k, c =>
    if k' == k then .cons k' c rest else .cons k' c' (rest.setKey k c)

def registerField (parent : Ctrl) (k : FieldKey) (child : Ctrl) : Ctrl :=
  match parent with
  | .mk v f e vd cs => .mk v f e vd (cs.setKey k child)

/-- `unregisterField`: `new Map(prev)` with the key deleted. -/
def CtrlMap.delKey : CtrlMap → FieldKey → CtrlMap
  | .nil, _ => .nil
  | .cons k' c' rest, k =>
    if k' == k then rest else .cons k' c' (rest.delKey k)

def unregisterField (parent : Ctrl) (k : FieldKey) : Ctrl :=
  match parent with
  | .mk v f e vd cs => .mk v f e vd (cs.delKey k)

/-- The `createEffect(on(value, () => setIsValidated(false)))` of control.ts
line 133: a value write resets `isValidated` on that node only. -/
def resetValidated : Ctrl → Ctrl
  | .mk v f e _ cs => .mk v f e false cs

section ValidateLemmas

theorem runValidator_true_iff (f? : Option (Val → Except Exn String)) (v : Val) :
    (runValidator f? v).2 = true ↔ ∀ f, f? = some f → f v = Except.ok "" := by
  cases f? with
  | none => simp [runValidator]
  | some f =>
    simp only [runValidator, Option.some.injEq]
    cases hf : f v with
    | ok err =>
      constructor
      · intro h g hg
        subst hg
        simpa [hf, beq_iff_eq] using congrArg (Except.ok (ε := Exn)) (by simpa using h)
      · intro h
        have := h f rfl
        rw [hf] at this
        simp_all
    | error e => simp_all

theorem validateAll_true_iff : ∀ cs : CtrlMap,
    (CtrlMap.validateAll cs).2 = true ↔
      ∀ p ∈ cs.toList, (Ctrl.validate p.2).2 = true
  | .nil => by simp [CtrlMap.validateAll, CtrlMap.toList]
  | .cons k c rest => by
    have ih := validateAll_true_iff rest
    simp only [CtrlMap.validateAll, CtrlMap.toList, List.mem_cons, Bool.and_eq_true]
    constructor
    · rintro ⟨hc, hrest⟩ p hp
      rcases hp with hp | hp
      · subst hp; exact hc
      · exact (ih.mp hrest) p hp
    · intro h
      exact ⟨h (k, c) (Or.inl rfl), ih.mpr fun p hp => h p (Or.inr hp)⟩

end ValidateLemmas

/-- C1: a single call to `validate()` resolves (its totality here models that
it never rejects) to `true` iff the node's own validator, when present,
returned the empty string on the current value, and the recursive `validate()`
of every child registered in the `fields` map at the moment of the call
resolved `true`; the fan-out is over that snapshot, so a child registered
after the call started does not affect the result. -/
theorem validate_true_iff_self_and_children (c : Ctrl) :
    (Ctrl.validate c).2 = true ↔
      ((∀ f, c.validator = some f → f c.value = Except.ok "") ∧
        ∀ p ∈ c.childList, (Ctrl.validate p.2).2 = true) := by
  cases c with
  | mk v f e vd cs =>
    simp only [Ctrl.validate, Bool.and_eq_true, Ctrl.validator, Ctrl.value,
      Ctrl.childList, Ctrl.children]
    rw [runValidator_true_iff, validateAll_true_iff]

section ValidityLemmas

theorem anyInvalid_false_iff : ∀ cs : CtrlMap,
    CtrlMap.anyInvalid cs = false ↔ ∀ p ∈ cs.toList, p.2.isInvalid = false
  | .nil => by simp [CtrlMap.anyInvalid, CtrlMap.toList]
  | .cons k c rest => by
    have ih := anyInvalid_false_iff rest
    simp only [CtrlMap.anyInvalid, CtrlMap.toList, List.mem_cons, Bool.or_eq_false_iff]
    constructor
    · rintro ⟨hc, hrest⟩ p hp
      rcases hp with hp | hp
      · subst hp; exact hc
      · exact ih.mp hrest p hp
    · intro h
      exact ⟨h (k, c) (Or.inl rfl), ih.mpr fun p hp => h p (Or.inr hp)⟩

theorem anyInvalid_true_iff (cs : CtrlMap) :
    CtrlMap.anyInvalid cs = true ↔ ∃ p ∈ cs.toList, p.2.isInvalid = true := by
  rcases h : CtrlMap.anyInvalid cs with _ | _
  · simp only [Bool.false_eq_true, false_iff]
    rintro ⟨p, hp, hinv⟩
    rw [(anyInvalid_false_iff cs).mp h p hp] at hinv
    exact Bool.false_ne_true hinv
  · simp only [true_iff]
    by_contra hno
    push_neg at hno
    have : CtrlMap.anyInvalid cs = false := (anyInvalid_false_iff cs).mpr fun p hp => by
      rcases hb : p.2.isInvalid with _ | _
      · rfl
      · exact absurd hb (hno p hp)
    rw [this] at h
    exact Bool.false_ne_true h

theorem runValidator_true_error_empty (f? : Option (Val → Except Exn String)) (v : Val)
    (h : (runValidator f? v).2 = true) : (runValidator f? v).1 = "" := by
  cases f? with
  | none => rfl
  | some f =>
    rcases hf : f v with ex | err
    · have hr : runValidator (some f) v = (jsString ex, false) := by
        simp [runValidator, hf]
      rw [hr] at h
      exact absurd h (by simp)
    · have hr : runValidator (some f) v = (err, err == "") := by
        simp [runValidator, hf]
      rw [hr] at h ⊢
      exact eq_of_beq h

mutual
theorem validate_true_isInvalid_false : ∀ c : Ctrl,
    (Ctrl.validate c).2 = true → (Ctrl.validate c).1.isInvalid = false
  | .mk v f e vd cs => by
    intro h
    simp only [Ctrl.validate, Bool.and_eq_true] at h
    have herr := runValidator_true_error_empty f v h.1
    have hch := validateAll_true_anyInvalid_false cs h.2
    simp [Ctrl.validate, Ctrl.isInvalid, herr, hch]

theorem validateAll_true_anyInvalid_false : ∀ cs : CtrlMap,
    (CtrlMap.validateAll cs).2 = true →
      CtrlMap.anyInvalid (CtrlMap.validateAll cs).1 = false
  | .nil => by intro; rfl
  | .cons k c rest => by
    intro h
    simp only [CtrlMap.validateAll, Bool.and_eq_true] at h
    have h1 := validate_true_isInvalid_false c h.1
    have h2 := validateAll_true_anyInvalid_false rest h.2
    simp [CtrlMap.validateAll, CtrlMap.anyInvalid, h1, h2]
end

theorem isInvalid_resetValidated (c : Ctrl) :
    (resetValidated c).isInvalid = CtrlMap.anyInvalid c.children := by
  cases c with
  | mk v f e vd cs => simp [resetValidated, Ctrl.isInvalid, Ctrl.children]

end ValidityLemmas

/-- A control that was validated as a (clean) leaf and then had a fresh,
never-validated child registered under it — the state reached by
`createControl` + `validate()` + `registerField`.  It refutes C2's
"only when every currently registered child Control is valid". -/
def ctrlValidatedWithFreshChild : Ctrl :=
  registerField (Ctrl.validate (.mk (.str "x") none "" false .nil)).1 (.str "a")
    (.mk (.str "y") none "" false .nil)

/-- C2, counterexample: the claim requires every registered child to satisfy
`isValid()` whenever the parent's `isValid()` reads true; but a parent that
validated before a fresh (never-validated) child was registered reads
`isValid() = true` while that child reads `isValid() = false` — `isInvalid`
(control.ts line 165) folds children through `isInvalid`, not `isValid`. -/
theorem isValid_unvalidated_child_cex :
    Ctrl.isValid ctrlValidatedWithFreshChild = true ∧
      ctrlValidatedWithFreshChild.childList.all (fun p => p.2.isValid) = false :=
  ⟨rfl, rfl⟩

/-- C2, amended: `isValid()` reads true iff the node is validated, its own
error is empty, and no currently registered child reads `isInvalid()` (a
registered child that was never validated does not block the parent);
an unvalidated node always reads `isValid() = false`, and if it moreover has
no registered children it also reads `isInvalid() = false`. -/
theorem isValid_iff_validated_no_error_no_invalid_child (c : Ctrl) :
    (c.isValid = true ↔
      c.validated = true ∧ c.error = "" ∧ ∀ p ∈ c.childList, p.2.isInvalid = false)
    ∧ (c.validated = false → c.isValid = false)
    ∧ (c.validated = false → c.childList = [] → c.isInvalid = false) := by
  cases c with
  | mk v f e vd cs =>
    refine ⟨?_, ?_, ?_⟩
    · simp only [Ctrl.isValid, Ctrl.isInvalid, Ctrl.validated, Ctrl.error,
        Ctrl.childList, Ctrl.children, ← anyInvalid_false_iff]
      cases vd with
      | false => simp
      | true =>
        cases hinv : CtrlMap.anyInvalid cs with
        | false => cases he : (e != "") with
          | false => simpa [he, hinv] using eq_of_beq (by simpa using he)
          | true =>
            simp only [he, hinv, Bool.true_and, Bool.or_false, Bool.not_true,
              Bool.and_false, Bool.false_eq_true, false_iff, not_and]
            intro _ hcon
            rw [hcon] at he
            simp at he
        | true => simp [hinv]
    · intro h
      simp [Ctrl.isValid, Ctrl.validated] at h ⊢
      simp [h]
    · intro h hl
      have : cs = .nil := by
        cases cs with
        | nil => rfl
        | cons k c rest => simp [Ctrl.childList, Ctrl.children, CtrlMap.toList] at hl
      subst this
      simp [Ctrl.isInvalid, Ctrl.validated] at h ⊢
      simp [h, CtrlMap.anyInvalid]

/-- A never-validated parent over a child that was validated on its own (its
validator returned "bad"): `child.validate()` is directly reachable through
the field API. -/
def ctrlUnvalidatedWithInvalidChild : Ctrl :=
  .mk (.str "x") none "" false
    (.cons (.str "a") (Ctrl.validate (.mk (.str "z") (some fun _ => .ok "bad") "" false .nil)).1 .nil)

/-- C3, counterexample: the claim says `isInvalid()` is true exactly when the
node is validated and (own error non-empty or some child invalid); but an
unvalidated parent whose registered child is invalid already reads
`isInvalid() = true` — in control.ts line 165 the `isValidated()` guard only
covers the own-error disjunct, not the child fold. -/
theorem isInvalid_unvalidated_parent_cex :
    Ctrl.isInvalid ctrlUnvalidatedWithInvalidChild = true ∧
      Ctrl.validated ctrlUnvalidatedWithInvalidChild = false :=
  ⟨rfl, rfl⟩

/-- C3, amended: `isInvalid()` reads true iff (the node is validated and its
own error is non-empty) or some currently registered child reads
`isInvalid()` — the validated guard applies only to the own-error disjunct,
so before the first validation `isInvalid()` is false provided no registered
child is invalid; and immediately after a value change following a prior
successful validation (the value write resets `isValidated` on that node,
control.ts line 133) `isInvalid()` reads false. -/
theorem isInvalid_iff_own_error_or_child (c : Ctrl) :
    (c.isInvalid = true ↔
      (c.validated = true ∧ c.error ≠ "") ∨ ∃ p ∈ c.childList, p.2.isInvalid = true)
    ∧ ((Ctrl.validate c).2 = true →
        (resetValidated (Ctrl.validate c).1).isInvalid = false) := by
  constructor
  · cases c with
    | mk v f e vd cs =>
      simp only [Ctrl.isInvalid, Ctrl.validated, Ctrl.error, Ctrl.childList,
        Ctrl.children, Bool.or_eq_true, Bool.and_eq_true, bne_iff_ne,
        anyInvalid_true_iff]
  · intro h
    rw [isInvalid_resetValidated]
    have hfull := validate_true_isInvalid_false c h
    cases hv : (Ctrl.validate c).1 with
    | mk v f e vd cs =>
      rw [hv] at hfull
      simp only [Ctrl.isInvalid, Bool.or_eq_false_iff] at hfull
      simpa [Ctrl.children] using hfull.2

/-- C4: a validator that throws (or returns a rejecting promise) on the
current value still lets `validate()` resolve — `validateSelf` (control.ts
lines 135-145) catches, the result is `false`, and the node's `error()`
becomes `String(e)` of the thrown value. -/
theorem validator_throw_resolves_false (c : Ctrl) (f : Val → Except Exn String)
    (e : Exn) (hf : c.validator = some f) (hth : f c.value = Except.error e) :
    (Ctrl.validate c).2 = false ∧ (Ctrl.validate c).1.error = jsString e := by
  cases c with
  | mk v f' e' vd cs =>
    simp only [Ctrl.validator, Option.some.injEq] at hf
    subst hf
    simp only [Ctrl.value] at hth
    simp [Ctrl.validate, runValidator, hth, Ctrl.error]

/-- A leaf control whose validator always throws `"Error: boom"`. -/
def ctrlThrowingValidator : Ctrl :=
  .mk (.num 1) (some fun _ => .error ⟨"Error: boom"⟩) "" false .nil

/-- C4 at a concrete input. -/
theorem validator_throw_resolves_false_witness :
    (Ctrl.validate ctrlThrowingValidator).2 = false ∧
      (Ctrl.validate ctrlThrowingValidator).1.error = jsString ⟨"Error: boom"⟩ :=
  validator_throw_resolves_false ctrlThrowingValidator _ ⟨"Error: boom"⟩ rfl rfl

/-! ## Pristine / dirty tracking (control.ts lines 109-111, 161-162) -/

/-- The pristine-relevant state of one control: `createControl` captures
`initialValue = value()` at construction (control.ts line 111) and keeps it
for the control's lifetime. -/
structure PristineState where
  initialValue : Val
  value : Val

/-- `isPristine` (control.ts line 161): `initialValue === value()`. -/
def PristineState.isPristine (s : PristineState) : Bool :=
  jsEq s.initialValue s.value

/-- `isDirty` (control.ts line 162): `!isPristine()`. -/
def PristineState.isDirty (s : PristineState) : Bool := !s.isPristine

/-- One `setValue` write as this node's value cell sees it. -/
def setValueWrite (s : PristineState) (v : Val) : PristineState :=
  ⟨s.initialValue, v⟩

/-- A whole sequence of `setValue` writes. -/
def setValueWrites (s : PristineState) (vs : List Val) : PristineState :=
  vs.foldl setValueWrite s

/-- Allocation identity of the top-level value, when it is an object/array. -/
def topAllocId : Val → Option Nat
  | .arr i _ => some i
  | .obj i _ => some i
  | _ => none

/-- "`setValue` allocates a new top-level value": the written value is an
array/object whose allocation identity differs from the initial value's. -/
def freshTopAlloc (init v : Val) : Bool :=
  match topAllocId v, topAllocId init with
  | some n, some m => n != m
  | some _, none => true
  | none, _ => false

theorem freshTopAlloc_not_jsEq (init v : Val)
    (h : freshTopAlloc init v = true) : jsEq init v = false := by
  cases v with
  | arr j es =>
    cases init with
    | arr i es' =>
      have hne : (j != i) = true := by simpa [freshTopAlloc, topAllocId] using h
      have hij : i ≠ j := fun hij => by simp [hij] at hne
      simpa [jsEq, beq_eq_false_iff_ne] using hij
    | obj i en => rfl
    | undefined => rfl
    | null => rfl
    | str s => rfl
    | num n => rfl
    | bool b => rfl
  | obj j en =>
    cases init with
    | obj i en' =>
      have hne : (j != i) = true := by simpa [freshTopAlloc, topAllocId] using h
      have hij : i ≠ j := fun hij => by simp [hij] at hne
      simpa [jsEq, beq_eq_false_iff_ne] using hij
    | arr i es => rfl
    | undefined => rfl
    | null => rfl
    | str s => rfl
    | num n => rfl
    | bool b => rfl
  | undefined => simp [freshTopAlloc, topAllocId] at h
  | null => simp [freshTopAlloc, topAllocId] at h
  | str s => simp [freshTopAlloc, topAllocId] at h
  | num n => simp [freshTopAlloc, topAllocId] at h
  | bool b => simp [freshTopAlloc, topAllocId] at h

theorem setValueWrites_ne_nil (s : PristineState) :
    ∀ vs : List Val, vs ≠ [] →
      ∃ v ∈ vs, setValueWrites s vs = ⟨s.initialValue, v⟩ := by
  intro vs
  induction vs generalizing s with
  | nil => intro h; exact absurd rfl h
  | cons v rest ih =>
    intro _
    cases rest with
    | nil => exact ⟨v, List.mem_singleton.mpr rfl, rfl⟩
    | cons w rest' =>
      obtain ⟨u, hu, hequ⟩ := ih (setValueWrite s v) (by simp)
      exact ⟨u, List.mem_cons_of_mem v hu, hequ⟩

/-- C5: starting from construction (where `value() = initialValue`), after any
non-empty sequence of `setValue` calls each of which writes a newly allocated
top-level value — even one structurally identical to the old — `isPristine()`
reads false and `isDirty()` true; and in every state `isPristine()` is exactly
`initialValue === value()` (reference identity, not deep equality) while
`isDirty()` is its negation. -/
theorem isPristine_iff_reference_identical (init : Val) (vs : List Val)
    (hne : vs ≠ []) (hfresh : ∀ v ∈ vs, freshTopAlloc init v = true) :
    (setValueWrites ⟨init, init⟩ vs).isPristine = false ∧
      (setValueWrites ⟨init, init⟩ vs).isDirty = true ∧
      ∀ t : PristineState,
        (t.isPristine = true ↔ jsEq t.initialValue t.value = true) ∧
        t.isDirty = !t.isPristine := by
  obtain ⟨v, hv, heq⟩ := setValueWrites_ne_nil ⟨init, init⟩ vs hne
  have hp : (setValueWrites ⟨init, init⟩ vs).isPristine = false := by
    rw [heq]
    simpa [PristineState.isPristine] using freshTopAlloc_not_jsEq init v (hfresh v hv)
  refine ⟨hp, ?_, fun t => ⟨Iff.rfl, rfl⟩⟩
  simp [PristineState.isDirty, hp]

/-- C5 at a concrete input: replacing the initial `{}` (allocation id 0) by a
structurally identical but newly allocated `{}` (id 1) flips to dirty. -/
theorem isPristine_iff_reference_identical_witness :
    (setValueWrites ⟨.obj 0 [], .obj 0 []⟩ [.obj 1 []]).isPristine = false ∧
      (setValueWrites ⟨.obj 0 [], .obj 0 []⟩ [.obj 1 []]).isDirty = true ∧
      ∀ t : PristineState,
        (t.isPristine = true ↔ jsEq t.initialValue t.value = true) ∧
        t.isDirty = !t.isPristine :=
  isPristine_iff_reference_identical (.obj 0 []) [.obj 1 []] (by simp)
    (by intro v hv; rw [List.mem_singleton.mp hv]; rfl)

/-! ## Field binding: the value lens (src/src/field.ts) -/

/-- `control.value()?.[name]` (field.ts line 70): optional chaining returns
`undefined` on a nullish receiver; otherwise an index read on arrays and
strings, a key read on objects (JS coerces a numeric property key to its
string form, `String(key)`).  Exotic non-index properties of arrays/strings
(`length`, methods) are outside the model: the library reads fields of an
array parent only through numeric keys. -/
def fieldGet (name : FieldKey) (v : Val) : Val :=
  match v with
  | .null => .undefined
  | .undefined => .undefined
  | .arr _ xs =>
    match name with
    | .idx i => xs.getD i .undefined
    | .str _ => .undefined
  | .obj _ kvs =>
    ((kvs.find? (fun p => p.1 == name.toStr)).map Prod.snd).getD .undefined
  | .str s =>
    match name with
    | .idx i =>
      if i < s.length then .str (String.singleton (s.toList.getD i ' '))
      else .undefined
    | .str _ => .undefined
  | _ => .undefined

/-- Digit-string parsing for `Number(key)` of a string key. -/
def digitsToNat? (cs : List Char) : Option Nat :=
  if cs ≠ [] ∧ cs.all Char.isDigit then
    some (cs.foldl (fun a c => a * 10 + (c.toNat - 48)) 0)
  else none

/-- `Number(props.name)` used as the splice start (field.ts line 79): a
numeric key is itself; a digit-string key parses; any other key is NaN,
which `splice` coerces to start 0. -/
def jsSpliceStart : FieldKey → Nat
  | .idx n => n
  | .str s => (digitsToNat? s.toList).getD 0

/-- `Array.prototype.splice(start, deleteCount, ...items)` on a copied array:
the start is clamped to the length, the delete count to what remains
(nonnegative starts only — the source only ever passes keys/indices). -/
def listSplice (start deleteCount : Nat) (items : List Val) (l : List Val) :
    List Val :=
  l.take (min start l.length) ++ items ++ l.drop (min start l.length + deleteCount)

/-- The own enumerable string-keyed entries that `{...prev}` spreads. -/
def spreadEntries : Val → List (String × Val)
  | .obj _ kvs => kvs
  | .arr _ xs => xs.enum.map fun p => (toString p.1, p.2)
  | .str s => s.toList.enum.map fun p => (toString p.1, .str (String.singleton p.2))
  | _ => []

/-- `{ ...prev, [name]: newValue }` (field.ts lines 82-85): a key already
present keeps its position and is overwritten; a new key is appended. -/
def objSpreadSet (kvs : List (String × Val)) (name : String) (v : Val) :
    List (String × Val) :=
  if kvs.any (fun p => p.1 == name) then
    kvs.map fun p => if p.1 == name then (name, v) else p
  else kvs ++ [(name, v)]

/-- The parent-value rewrite a field's `setValue` commits (field.ts lines
74-87) once `newValue` is computed: a positional splice of a copied array when
the parent value is an array, a fresh shallow object copy with the key
overwritten otherwise.  `fid` is the allocation identity of the copy. -/
def fieldSetValue (name : FieldKey) (newValue : Val) (fid : Nat) (prev : Val) :
    Val :=
  match prev with
  | .arr _ xs => .arr fid (listSplice (jsSpliceStart name) 1 [newValue] xs)
  | p => .obj fid (objSpreadSet (spreadEntries p) name.toStr newValue)

/-- The argument of `setValue`: a literal value or an updater function. -/
def computeNewValue (arg : Val ⊕ (Val → Val)) (name : FieldKey) (prev : Val) :
    Val :=
  match arg with
  | .inl v => v
  | .inr f => f (fieldGet name prev)

/-- The whole setter `setValue(arg)` (field.ts lines 74-87):
`typeof value === 'function' ? value(prev?.[name]) : value`, then commit. -/
def fieldSetArg (arg : Val ⊕ (Val → Val)) (name : FieldKey) (fid : Nat)
    (prev : Val) : Val :=
  fieldSetValue name (computeNewValue arg name prev) fid prev

theorem listSplice_set (k : Nat) (nv : Val) (xs : List Val) (h : k < xs.length) :
    listSplice k 1 [nv] xs = xs.set k nv := by
  rw [List.set_eq_take_cons_drop nv h, listSplice, Nat.min_eq_left (Nat.le_of_lt h)]
  simp

theorem find?_map_overwrite (kvs : List (String × Val)) (name k' : String)
    (v : Val) (hne : k' ≠ name) :
    (kvs.map fun p => if p.1 == name then (name, v) else p).find?
        (fun p => p.1 == k') =
      kvs.find? (fun p => p.1 == k') := by
  induction kvs with
  | nil => rfl
  | cons q rest ih =>
    rw [List.map_cons]
    by_cases hq : q.1 = name
    · have hmap : (if (q.1 == name) = true then (name, v) else q) = (name, v) := by
        simp [hq]
      have h1 : (((name, v) : String × Val).1 == k') = false := by
        simp only [beq_eq_false_iff_ne, ne_eq]
        exact fun h => hne h.symm
      have h2 : (q.1 == k') = false := by
        simp only [beq_eq_false_iff_ne, ne_eq, hq]
        exact fun h => hne h.symm
      rw [hmap]
      simp only [List.find?]
      rw [h1, h2]
      exact ih
    · have hmap : (if (q.1 == name) = true then (name, v) else q) = q := by
        simp [hq]
      rw [hmap]
      by_cases hqk : q.1 = k'
      · have h1 : (q.1 == k') = true := by simp [hqk]
        simp only [List.find?]
        rw [h1]
      · have h1 : (q.1 == k') = false := by simp [hqk]
        simp only [List.find?]
        rw [h1]
        exact ih

theorem find?_map_overwrite_self (kvs : List (String × Val)) (name : String)
    (v : Val) (h : kvs.any (fun p => p.1 == name) = true) :
    (kvs.map fun p => if p.1 == name then (name, v) else p).find?
        (fun p => p.1 == name) = some (name, v) := by
  induction kvs with
  | nil => simp at h
  | cons q rest ih =>
    rw [List.map_cons]
    by_cases hq : q.1 = name
    · have hmap : (if (q.1 == name) = true then (name, v) else q) = (name, v) := by
        simp [hq]
      have h1 : (((name, v) : String × Val).1 == name) = true := by simp
      rw [hmap]
      simp only [List.find?]
      rw [h1]
    · have hmap : (if (q.1 == name) = true then (name, v) else q) = q := by
        simp [hq]
      have h1 : (q.1 == name) = false := by simp [hq]
      have hrest : rest.any (fun p => p.1 == name) = true := by
        rcases List.any_eq_true.mp h with ⟨x, hx, hpx⟩
        rcases List.mem_cons.mp hx with hx | hx
        · subst hx; exact absurd (eq_of_beq hpx) hq
        · exact List.any_eq_true.mpr ⟨x, hx, hpx⟩
      rw [hmap]
      simp only [List.find?]
      rw [h1]
      exact ih hrest

theorem objSpreadSet_find_self (kvs : List (String × Val)) (name : String)
    (v : Val) :
    (objSpreadSet kvs name v).find? (fun p => p.1 == name) = some (name, v) := by
  unfold objSpreadSet
  split
  next h => exact find?_map_overwrite_self kvs name v h
  next h =>
    rw [List.find?_append]
    have h0 : kvs.find? (fun p => p.1 == name) = none := by
      rw [List.find?_eq_none]
      intro x hx
      simp only [Bool.not_eq_true]
      rcases hb : (x.1 == name) with _ | _
      · rfl
      · exact absurd (List.any_eq_true.mpr ⟨x, hx, hb⟩) h
    rw [h0]
    simp [List.find?]

theorem objSpreadSet_find_other (kvs : List (String × Val)) (name k' : String)
    (v : Val) (hne : k' ≠ name) :
    (objSpreadSet kvs name v).find? (fun p => p.1 == k') =
      kvs.find? (fun p => p.1 == k') := by
  have hnk : ¬name = k' := fun h => hne h.symm
  unfold objSpreadSet
  split
  · exact find?_map_overwrite kvs name k' v hne
  · rw [List.find?_append]
    have h1 : List.find? (fun p => p.1 == k') [(name, v)] = none := by
      have hc : (name == k') = false := by
        simp only [beq_eq_false_iff_ne, ne_eq]
        exact hnk
      simp only [List.find?]
      rw [hc]
    rw [h1]
    cases kvs.find? (fun p => p.1 == k') <;> rfl

/-- For an array parent, an index beyond the bounds breaks the claim: a field
at index 5 over the one-element array writes via `splice(5, 1, x)`, which
appends at the end, so index 5 of the result reads `undefined`, not the new
child value. -/
theorem fieldSetValue_out_of_range_cex :
    fieldGet (.idx 5)
        (fieldSetValue (.idx 5) (.str "x") 1 (.arr 0 [.str "a"])) =
        Val.undefined ∧
      Val.undefined ≠ Val.str "x" :=
  ⟨rfl, fun h => Val.noConfusion h⟩

/-- C6, amended: the field's `setValue` replaces the parent's value with a new
top-level value; for an array parent, the rewrite is the positional splice of
a copied array and, for an index within bounds, index `k` maps to the new
child value while every other index keeps its reference-identical previous
element (out of bounds, the splice appends at the end instead); for an object
parent, a shallow copy with key `name` overwritten and every other key
reference-identical; an updater argument is applied to the previous projected
value `prev?.[name]`. -/
theorem fieldSetValue_lens (name : FieldKey) (nv : Val) (fid : Nat) :
    (∀ id xs k, name = .idx k → k < xs.length →
      fieldSetValue name nv fid (.arr id xs) = .arr fid (xs.set k nv) ∧
      fieldGet name (fieldSetValue name nv fid (.arr id xs)) = nv ∧
      (∀ j, j ≠ k → (xs.set k nv).getD j .undefined = xs.getD j .undefined) ∧
      (fid ≠ id →
        jsEq (.arr id xs) (fieldSetValue name nv fid (.arr id xs)) = false)) ∧
    (∀ id kvs,
      fieldGet name (fieldSetValue name nv fid (.obj id kvs)) = nv ∧
      (∀ k' : FieldKey, k'.toStr ≠ name.toStr →
        fieldGet k' (fieldSetValue name nv fid (.obj id kvs)) =
          fieldGet k' (.obj id kvs)) ∧
      (fid ≠ id →
        jsEq (.obj id kvs) (fieldSetValue name nv fid (.obj id kvs)) = false)) ∧
    (∀ upd prev, fieldSetArg (Sum.inr upd) name fid prev =
      fieldSetValue name (upd (fieldGet name prev)) fid prev) := by
  refine ⟨fun id xs k hk hlt => ?_, fun id kvs => ?_, fun upd prev => rfl⟩
  · subst hk
    have hsplice : fieldSetValue (.idx k) nv fid (.arr id xs) =
        .arr fid (xs.set k nv) := by
      simp only [fieldSetValue, jsSpliceStart]
      rw [listSplice_set k nv xs hlt]
    have hgetk : (xs.set k nv).getD k .undefined = nv := by
      rw [List.getD_eq_getElem?_getD, List.getElem?_set_self',
        List.getElem?_eq_getElem hlt]
      rfl
    refine ⟨hsplice, ?_, fun j hj => ?_, fun hfid => ?_⟩
    · rw [hsplice]
      simpa [fieldGet] using hgetk
    · rw [List.getD_eq_getElem?_getD, List.getElem?_set_ne (fun h => hj h.symm),
        ← List.getD_eq_getElem?_getD]
    · rw [hsplice]
      simpa [jsEq, beq_eq_false_iff_ne] using fun h => hfid h.symm
  · refine ⟨?_, fun k' hk' => ?_, fun hfid => ?_⟩
    · simp [fieldSetValue, fieldGet, spreadEntries,
        objSpreadSet_find_self kvs name.toStr nv]
    · simp [fieldSetValue, fieldGet, spreadEntries,
        objSpreadSet_find_other kvs name.toStr k'.toStr nv hk']
    · simpa [fieldSetValue, jsEq, beq_eq_false_iff_ne] using fun h => hfid h.symm

/-! ## Array mutation methods (src/src/arrayField.tsx lines 189-244) -/

/-- `array[i]`: `undefined` out of range. -/
def jsArrGet (l : List Val) (i : Nat) : Val := l.getD i .undefined

/-- `array[i] = v`: in range replaces; past the end extends the array with
undefined holes up to `i`. -/
def jsArrSet (l : List Val) (i : Nat) (v : Val) : List Val :=
  if i < l.length then l.set i v
  else l ++ List.replicate (i - l.length) .undefined ++ [v]

/-- `append` (line 193): `p ? [...p, item] : [item]`; `none` models a nullish
current value. -/
def appendItem (item : Val) : Option (List Val) → List Val
  | some p => p ++ [item]
  | none => [item]

/-- `prepend` (line 197): `p ? [item, ...p] : [item]`. -/
def prependItem (item : Val) : Option (List Val) → List Val
  | some p => item :: p
  | none => [item]

/-- `insert` (lines 200-206): `const array = p ? [...p] : []` then
`array.splice(index, 0, item)`. -/
def insertItem (i : Nat) (item : Val) (p : Option (List Val)) : List Val :=
  listSplice i 0 [item] (p.getD [])

/-- `replace` (lines 208-214): `array.splice(index, 1, item)`. -/
def replaceItem (i : Nat) (item : Val) (p : Option (List Val)) : List Val :=
  listSplice i 1 [item] (p.getD [])

/-- `remove` (lines 216-222): `array.splice(index, 1)`. -/
def removeItem (i : Nat) (p : Option (List Val)) : List Val :=
  listSplice i 1 [] (p.getD [])

/-- `swap` (lines 224-233): read both elements of the copy, then write them
back crosswise. -/
def swapItem (a b : Nat) (p : Option (List Val)) : List Val :=
  let array := p.getD []
  jsArrSet (jsArrSet array a (jsArrGet array b)) b (jsArrGet array a)

theorem insert_remove_id (xs : List Val) (x : Val) (i : Nat)
    (h : i ≤ xs.length) :
    removeItem i (some (insertItem i x (some xs))) = xs := by
  have hlt : (xs.take i).length = i := by
    rw [List.length_take]; exact Nat.min_eq_left h
  have hins : insertItem i x (some xs) = (xs.take i ++ [x]) ++ xs.drop i := by
    simp only [insertItem, listSplice, Option.getD_some, Nat.add_zero,
      Nat.min_eq_left h, List.append_assoc]
  have hlen : ((xs.take i ++ [x]) ++ xs.drop i).length = xs.length + 1 := by
    simp only [List.length_append, List.length_cons, List.length_nil, hlt,
      List.length_drop]
    omega
  have ht : ((xs.take i ++ [x]) ++ xs.drop i).take i = xs.take i := by
    rw [List.append_assoc]
    exact List.take_left' hlt
  have hd : ((xs.take i ++ [x]) ++ xs.drop i).drop (i + 1) = xs.drop i :=
    List.drop_left' (by simp [hlt])
  rw [hins, removeItem]
  simp only [Option.getD_some, listSplice, hlen,
    Nat.min_eq_left (show i ≤ xs.length + 1 by omega)]
  rw [List.append_nil, ht, hd]
  exact List.take_append_drop i xs

theorem swapItem_of_lt (xs : List Val) (a b : Nat) (ha : a < xs.length)
    (hb : b < xs.length) :
    swapItem a b (some xs) =
      (xs.set a (jsArrGet xs b)).set b (jsArrGet xs a) := by
  have hb' : b < (xs.set a (jsArrGet xs b)).length := by
    rw [List.length_set]; exact hb
  simp only [swapItem, Option.getD_some, jsArrSet, if_pos ha, if_pos hb']

theorem swap_swap_id (xs : List Val) (a b : Nat) (ha : a < xs.length)
    (hb : b < xs.length) :
    swapItem a b (some (swapItem a b (some xs))) = xs := by
  have hva : xs[a]? = some (jsArrGet xs a) := by
    rw [jsArrGet, List.getD_eq_getElem?_getD, List.getElem?_eq_getElem ha]
    rfl
  have hvb : xs[b]? = some (jsArrGet xs b) := by
    rw [jsArrGet, List.getD_eq_getElem?_getD, List.getElem?_eq_getElem hb]
    rfl
  set va := jsArrGet xs a with hva'
  set vb := jsArrGet xs b with hvb'
  have h1 : swapItem a b (some xs) = (xs.set a vb).set b va :=
    swapItem_of_lt xs a b ha hb
  set L1 := (xs.set a vb).set b va with hL1
  have hL1len : L1.length = xs.length := by simp [hL1]
  have hL1a : L1[a]? = some vb := by
    by_cases hab : a = b
    · subst hab
      have : va = vb := by rw [hva', hvb']
      rw [hL1, this]
      exact List.getElem?_set_self (by simpa using ha)
    · rw [hL1, List.getElem?_set_ne (fun hh => hab hh.symm),
        List.getElem?_set_self ha]
  have hL1b : L1[b]? = some va := List.getElem?_set_self (by simpa using hb)
  have hga : jsArrGet L1 a = vb := by
    rw [jsArrGet, List.getD_eq_getElem?_getD, hL1a]; rfl
  have hgb : jsArrGet L1 b = va := by
    rw [jsArrGet, List.getD_eq_getElem?_getD, hL1b]; rfl
  have h2 : swapItem a b (some L1) = (L1.set a va).set b vb := by
    rw [swapItem_of_lt L1 a b (by rw [hL1len]; exact ha) (by rw [hL1len]; exact hb),
      hga, hgb]
  rw [h1, h2]
  apply List.ext_getElem?
  intro n
  by_cases hnb : n = b
  · subst hnb
    rw [List.getElem?_set_self (by simp [hL1len]; exact hb), hvb]
  · rw [List.getElem?_set_ne (fun hh => hnb hh.symm)]
    by_cases hna : n = a
    · subst hna
      rw [List.getElem?_set_self (by rw [hL1len]; exact ha), hva]
    · rw [List.getElem?_set_ne (fun hh => hna hh.symm), hL1,
        List.getElem?_set_ne (fun hh => hnb hh.symm),
        List.getElem?_set_ne (fun hh => hna hh.symm)]

theorem append_remove_last_id (xs : List Val) (x : Val) :
    removeItem ((appendItem x (some xs)).length - 1)
      (some (appendItem x (some xs))) = xs := by
  have hlen : (appendItem x (some xs)).length = xs.length + 1 := by
    simp [appendItem]
  rw [hlen]
  simp only [Nat.add_sub_cancel, removeItem, Option.getD_some, appendItem,
    listSplice]
  rw [Nat.min_eq_left (by simp : xs.length ≤ (xs ++ [x]).length),
    List.take_left' rfl, List.append_nil]
  have : (xs ++ [x]).drop (xs.length + 1) = [] := by
    apply List.drop_eq_nil_of_le
    simp
  rw [this, List.append_nil]

/-- C7 counterexample at a concrete out-of-range input: `insert(1, "x")` on
the empty array clamps the splice start to 0 and yields `["x"]`; the
following `remove(1)` deletes nothing, so the original `[]` is not restored —
the claim's quantification over all indices fails. -/
theorem insert_remove_out_of_range_cex :
    removeItem 1 (some (insertItem 1 (.str "x") (some []))) = [Val.str "x"] ∧
      ([Val.str "x"] : List Val) ≠ ([] : List Val) :=
  ⟨rfl, fun h => List.noConfusion h⟩

/-- C7, amended: the mutation laws hold for indices within bounds:
`insert(i, x)` followed by `remove(i)` restores the original sequence for
`i ≤ length`; `swap(a, b)` is its own inverse for `a, b < length`; and
`append(x)` followed by `remove(length - 1)` (the last position of the grown
array) always restores the original sequence.  Out of range, splice clamping
and index-write extension break the first two laws. -/
theorem array_mutation_laws (xs : List Val) (x : Val) :
    (∀ i, i ≤ xs.length →
      removeItem i (some (insertItem i x (some xs))) = xs) ∧
    (∀ a b, a < xs.length → b < xs.length →
      swapItem a b (some (swapItem a b (some xs))) = xs) ∧
    removeItem ((appendItem x (some xs)).length - 1)
      (some (appendItem x (some xs))) = xs :=
  ⟨fun i h => insert_remove_id xs x i h,
   fun a b ha hb => swap_swap_id xs a b ha hb,
   append_remove_last_id xs x⟩

/-- C10: the public operations are total on a nullish current value (totality
of these Lean functions models "returns instead of throwing"): reading a
field of a `null` or `undefined` parent returns `undefined` (field.ts line
70's optional chaining), and every array mutation method invoked while the
current value is nullish behaves exactly as on the empty array — in
particular `append(x)` produces `[x]`. -/
theorem nullish_parent_total (name : FieldKey) (x : Val) (i a b : Nat) :
    fieldGet name .null = .undefined ∧
    fieldGet name .undefined = .undefined ∧
    appendItem x none = [x] ∧
    appendItem x none = appendItem x (some []) ∧
    prependItem x none = prependItem x (some []) ∧
    insertItem i x none = insertItem i x (some []) ∧
    replaceItem i x none = replaceItem i x (some []) ∧
    removeItem i none = removeItem i (some []) ∧
    swapItem a b none = swapItem a b (some []) :=
  ⟨rfl, rfl, rfl, rfl, rfl, rfl, rfl, rfl, rfl⟩

/-! ## Form submission (src/src/form.ts lines 83-106) -/

/-- The `response` signal's content: a callback result or a caught exception. -/
inductive Resp where
  | val (v : Val)
  | exn (e : Exn)
deriving Repr

/-- The submission-related state of a form (`submitCount`, `isSubmitting`,
`response` signals of `createForm`). -/
structure SubmitState where
  submitCount : Nat
  isSubmitting : Bool
  response : Resp

/-- What one `handleSubmit` run did: the final state and how many times each
callback was invoked. -/
structure SubmitRun where
  state : SubmitState
  onValidCalls : Nat
  onInvalidCalls : Nat

/-- `handleSubmit(onValid, onInvalid)` (form.ts lines 83-106).  The settled
outcome of `await control.validate()` together with the following
`control.isValid()` read is the parameter `validated` (`.error e` = the
awaited call rejected with `e`; `.ok b` = it resolved and `isValid()` read
`b`).  On the invalid path `focusError()` runs before `onInvalid` (not
modelled further).  A missing callback leaves the response the `undefined`
value of `await onValid?.(...)`; a callback returning `.error` is a thrown
exception, caught and stored.  The `finally` block always clears
`isSubmitting` and increments `submitCount`; nothing is rethrown — this
function is total. -/
def handleSubmit (validated : Except Exn Bool)
    (onValid onInvalid : Option (Val → Except Exn Val)) (v : Val)
    (st : SubmitState) : SubmitRun :=
  match validated with
  | .error e => ⟨⟨st.submitCount + 1, false, .exn e⟩, 0, 0⟩
  | .ok isValidNow =>
    if isValidNow then
      match onValid with
      | none => ⟨⟨st.submitCount + 1, false, .val .undefined⟩, 0, 0⟩
      | some f =>
        match f v with
        | .ok r => ⟨⟨st.submitCount + 1, false, .val r⟩, 1, 0⟩
        | .error e => ⟨⟨st.submitCount + 1, false, .exn e⟩, 1, 0⟩
    else
      match onInvalid with
      | none => ⟨⟨st.submitCount + 1, false, .val .undefined⟩, 0, 0⟩
      | some f =>
        match f v with
        | .ok r => ⟨⟨st.submitCount + 1, false, .val r⟩, 0, 1⟩
        | .error e => ⟨⟨st.submitCount + 1, false, .exn e⟩, 0, 1⟩

/-- C8: when the tree validates as invalid, `handleSubmit(onValid, onInvalid)`
invokes `onInvalid` exactly once and never invokes `onValid`, increments
`submitCount` by exactly one, and leaves `isSubmitting` false once settled;
and any exception — a rejection of the `validate()` call, or a throw from
whichever callback ran — is caught inside `handleSubmit`, stored as the
response, and not rethrown; in every case the `finally` bookkeeping runs. -/
theorem handleSubmit_invalid_once_and_catches
    (f g : Val → Except Exn Val)
    (onValid onInvalid : Option (Val → Except Exn Val)) (v : Val)
    (st : SubmitState) (e : Exn) :
    ((handleSubmit (.ok false) (some f) (some g) v st).onInvalidCalls = 1 ∧
      (handleSubmit (.ok false) (some f) (some g) v st).onValidCalls = 0) ∧
    ((handleSubmit (.error e) onValid onInvalid v st).state.response = .exn e ∧
      (handleSubmit (.error e) onValid onInvalid v st).state.submitCount =
        st.submitCount + 1 ∧
      (handleSubmit (.error e) onValid onInvalid v st).state.isSubmitting =
        false) ∧
    (g v = .error e →
      (handleSubmit (.ok false) (some f) (some g) v st).state.response =
        .exn e) ∧
    (f v = .error e →
      (handleSubmit (.ok true) (some f) (some g) v st).state.response =
        .exn e) ∧
    ∀ outcome : Except Exn Bool,
      (handleSubmit outcome onValid onInvalid v st).state.isSubmitting =
          false ∧
        (handleSubmit outcome onValid onInvalid v st).state.submitCount =
          st.submitCount + 1 := by
  refine ⟨⟨?_, ?_⟩, ⟨rfl, rfl, rfl⟩, fun hg => ?_, fun hf => ?_,
    fun outcome => ?_⟩
  · cases hg : g v <;> simp [handleSubmit, hg]
  · cases hg : g v <;> simp [handleSubmit, hg]
  · simp [handleSubmit, hg]
  · simp [handleSubmit, hf]
  · cases outcome with
    | error e' => exact ⟨rfl, rfl⟩
    | ok b =>
      cases b with
      | false =>
        cases onInvalid with
        | none => exact ⟨rfl, rfl⟩
        | some gg => cases hgg : gg v <;> simp [handleSubmit, hgg]
      | true =>
        cases onValid with
        | none => exact ⟨rfl, rfl⟩
        | some ff => cases hff : ff v <;> simp [handleSubmit, hff]

/-! ## Tree-walk helpers: getErrorList / getErrorMap (utilities file) -/

mutual
/-- `getErrorList` (utilities lines 24-30): `[control.error()]`, then push
every child's list (`fields().forEach`, insertion order), then
`.filter(Boolean)` — empty strings are dropped. -/
def getErrorList : Ctrl → List String
  | .mk _ _ e _ cs => (e :: getErrorListChildren cs).filter (fun s => s != "")

/-- The pushed child contributions (each already filtered). -/
def getErrorListChildren : CtrlMap → List String
  | .nil => []
  | .cons _ c rest => getErrorList c ++ getErrorListChildren rest
end

mutual
/-- The claim's stated error list: the node's own error followed by every
descendant's error, depth-first, parent before children, no filtering. -/
def specErrorList : Ctrl → List String
  | .mk _ _ e _ cs => e :: specErrorListChildren cs

def specErrorListChildren : CtrlMap → List String
  | .nil => []
  | .cons _ c rest => specErrorList c ++ specErrorListChildren rest
end

mutual
/-- `getErrorEntries` (the inner helper of `getErrorMap`, utilities lines
37-48): `[[name, control.error()]]` plus, per child, the entries under
`name ? name + "." + String(key) : String(key)`.  `getErrorMap` is
`Object.fromEntries` of these entries (on the rare path collision —
a literal key containing a dot — `fromEntries` keeps the last entry). -/
def getErrorEntries : Ctrl → String → List (String × String)
  | .mk _ _ e _ cs, pathName =>
    (pathName, e) :: getErrorEntriesChildren cs pathName

def getErrorEntriesChildren : CtrlMap → String → List (String × String)
  | .nil, _ => []
  | .cons k c rest, pathName =>
    getErrorEntries c
        (if pathName == "" then k.toStr else pathName ++ "." ++ k.toStr) ++
      getErrorEntriesChildren rest pathName
end

/-- The claim's join step: the child's key joined onto the accumulating
parent path with the '.' separator, the root's path being the empty string. -/
def joinKey (path : String) (k : FieldKey) : String :=
  if path = "" then k.toStr else path ++ "." ++ k.toStr

/-- The path of a descendant reached by a key list from the root. -/
def joinPath (ks : List FieldKey) : String := ks.foldl joinKey ""

/-- `Map.get`-style lookup in the `fields` map. -/
def CtrlMap.lookupKey : CtrlMap → FieldKey → Option Ctrl
  | .nil, _ => none
  | .cons k' c rest, k => if k' == k then some c else rest.lookupKey k

/-- The descendant control at a key path. -/
def subCtrl : Ctrl → List FieldKey → Option Ctrl
  | c, [] => some c
  | c, k :: ks =>
    match c.children.lookupKey k with
    | some d => subCtrl d ks
    | none => none

mutual
theorem getErrorList_filter : ∀ c : Ctrl,
    getErrorList c = (specErrorList c).filter (fun s => s != "")
  | .mk v f e vd cs => by
    rw [getErrorList, specErrorList, getErrorListChildren_filter cs,
      List.filter_cons, List.filter_cons, List.filter_filter]
    simp

theorem getErrorListChildren_filter : ∀ cs : CtrlMap,
    getErrorListChildren cs = (specErrorListChildren cs).filter (fun s => s != "")
  | .nil => rfl
  | .cons k c rest => by
    rw [getErrorListChildren, specErrorListChildren, List.filter_append,
      getErrorList_filter c, getErrorListChildren_filter rest]
end

theorem joinKey_eq_code (path : String) (k : FieldKey) :
    (if path == "" then k.toStr else path ++ "." ++ k.toStr) = joinKey path k := by
  rw [joinKey]
  by_cases h : path = "" <;> simp [h]

theorem entries_child_mem : ∀ (cs : CtrlMap) (k : FieldKey) (ch : Ctrl)
    (pathName : String) (q : String × String),
    cs.lookupKey k = some ch →
    q ∈ getErrorEntries ch (joinKey pathName k) →
    q ∈ getErrorEntriesChildren cs pathName
  | .nil, k, ch, pathName, q => by
    intro h
    simp [CtrlMap.lookupKey] at h
  | .cons k' c rest, k, ch, pathName, q => by
    intro h hq
    rw [CtrlMap.lookupKey] at h
    by_cases hk : (k' == k) = true
    · rw [if_pos hk] at h
      have hkk : k' = k := eq_of_beq hk
      have hch : c = ch := Option.some.injEq _ _ |>.mp h
      rw [getErrorEntriesChildren, joinKey_eq_code, hkk, hch]
      exact List.mem_append_left _ hq
    · rw [if_neg hk] at h
      rw [getErrorEntriesChildren]
      exact List.mem_append_right _ (entries_child_mem rest k ch pathName q h hq)

theorem subCtrl_entry_mem : ∀ (ks : List FieldKey) (c : Ctrl)
    (pathName : String) (d : Ctrl),
    subCtrl c ks = some d →
    (ks.foldl joinKey pathName, d.error) ∈ getErrorEntries c pathName
  | [], c, pathName, d => by
    intro h
    rw [subCtrl, Option.some.injEq] at h
    subst h
    cases c with
    | mk v f e vd cs =>
      rw [getErrorEntries]
      exact List.mem_cons_self _ _
  | k :: ks, c, pathName, d => by
    intro h
    rw [subCtrl] at h
    rcases hlk : c.children.lookupKey k with _ | ch
    · rw [hlk] at h; exact absurd h (by simp)
    · rw [hlk] at h
      have ih := subCtrl_entry_mem ks ch (joinKey pathName k) d h
      have hmem := entries_child_mem c.children k ch pathName
        (ks.foldl joinKey (joinKey pathName k), d.error) hlk ih
      cases c with
      | mk v f e vd cs =>
        rw [getErrorEntries]
        exact List.mem_cons_of_mem _ (by simpa [Ctrl.children] using hmem)

/-- C9 counterexample: the error-list helper applies `.filter(Boolean)`
(utilities line 29), so a node whose own error is the empty string is dropped
from the list — the returned list is not "the node's own error followed by
every descendant's error". -/
def ctrlEmptyRootError : Ctrl :=
  .mk (.str "x") none "" true
    (.cons (.str "a") (.mk (.str "y") none "e" true .nil) .nil)

theorem getErrorList_filters_cex :
    getErrorList ctrlEmptyRootError = ["e"] ∧
      specErrorList ctrlEmptyRootError = ["", "e"] ∧
      (["e"] : List String) ≠ ["", "e"] :=
  ⟨rfl, rfl, by simp⟩

/-- C9, amended: the error-list helper returns the node's own error followed
by every descendant's error in depth-first order, parent before children,
with the empty strings (no-error sentinels) filtered out; and the error-map
helper's entries map the path of every node — each child key joined onto the
accumulating parent path with a '.' separator, the root's path being empty —
to that node's error message. -/
theorem errorList_and_errorMap_paths (c : Ctrl) :
    getErrorList c = (specErrorList c).filter (fun s => s != "") ∧
    ∀ ks d, subCtrl c ks = some d →
      (joinPath ks, d.error) ∈ getErrorEntries c "" :=
  ⟨getErrorList_filter c, fun ks d h => subCtrl_entry_mem ks c "" d h⟩
